import Mathlib

/-!
Shallow embedding of the Chrono-DB core (Go sources `db_engine.go`, `crdt.go`,
`raft.go`) and a verification of the specification's claims about it.

Modelling conventions:
* `time.Time` values become `Int` timestamps; `t1.After(t2)` becomes `t2 < t1`,
  `t1.Before(t2)` becomes `t1 < t2`, `t1.Equal(t2)` becomes `t1 = t2`.
* Go maps become association lists (`List (key × value)`); a Go map read of a
  missing key yields the zero value, which the lookup functions reproduce.
* `interface{}` payloads become a type parameter `α` (or `σ` for raft commands).
* Disk persistence (`persistData` / `loadData`) is I/O and is elided; the
  in-memory state transformation of each operation is modelled exactly.
* `time.Now()` inside `Insert` becomes an explicit `tx` argument.
-/

namespace ChronoDB

/-- Timestamps (`time.Time` collapsed to a linearly ordered integer clock). -/
abbrev Time := Int

/-- `TemporalRecord` from `db_engine.go` (the unused `Metadata` field is elided). -/
structure TemporalRecord (α : Type) where
  key : String
  value : α
  validTimeStart : Time
  validTimeEnd : Time
  transactionTime : Time
deriving DecidableEq, Repr

/-- The `data` field of `DBEngine`: a map from key to the insertion-ordered
record history, as an association list. -/
abbrev DBData (α : Type) := List (String × List (TemporalRecord α))

namespace DBEngine

/-- Reading `db.data[key]` together with its `exists` flag. -/
def lookupData {α : Type} (db : DBData α) (key : String) :
    Option (List (TemporalRecord α)) :=
  (db.find? fun kv => kv.1 == key).map fun kv => kv.2

/-- Writing `db.data[key] = h`: replace the first binding for `key`, or append
a fresh binding when the key is absent. -/
def setData {α : Type} (db : DBData α) (key : String)
    (h : List (TemporalRecord α)) : DBData α :=
  match db with
  | [] => [(key, h)]
  | kv :: rest =>
    if kv.1 == key then (key, h) :: rest else kv :: setData rest key h

/-- `Insert` from `db_engine.go`: builds the record with the supplied
transaction time (`time.Now()` in the source) and appends it to the key's
history; the source performs no validation of the valid-time range, and its
only error path is the elided disk write. -/
def Insert {α : Type} (db : DBData α) (key : String) (value : α)
    (validStart validEnd tx : Time) : DBData α :=
  setData db key
    (((lookupData db key).getD []) ++
      [{ key := key, value := value, validTimeStart := validStart,
         validTimeEnd := validEnd, transactionTime := tx }])

/-- The record predicate of the scan loop in `QueryTemporal`: the record is
skipped when `rec.TransactionTime.After(asOfTime)`, and its value is returned
when `validTime.After(rec.ValidTimeStart) && validTime.Before(rec.ValidTimeEnd)`
(both comparisons strict in the source). -/
def temporalMatch {α : Type} (asOf validTime : Time) (rec : TemporalRecord α) :
    Bool :=
  !(decide (asOf < rec.transactionTime)) &&
    decide (rec.validTimeStart < validTime) &&
    decide (validTime < rec.validTimeEnd)

/-- `QueryTemporal` from `db_engine.go`: look the key up, then scan the history
from the most recently inserted record to the oldest and return the first value
whose record passes `temporalMatch`. -/
def QueryTemporal {α : Type} (db : DBData α) (key : String)
    (asOf validTime : Time) : Option α :=
  match lookupData db key with
  | none => none
  | some records =>
    (records.reverse.find? (temporalMatch asOf validTime)).map fun rec =>
      rec.value

/-- Modelled from the spec: the record predicate as §4.1 words it, namely
`recordedAt ≤ asOf` and `validFrom ≤ validTime < validTo`, so that a record
whose `validFrom` equals `validTime` qualifies.  Used only to compare the
spec's description with the behaviour of the source. -/
def specTemporalMatch {α : Type} (asOf validTime : Time)
    (rec : TemporalRecord α) : Bool :=
  decide (rec.transactionTime ≤ asOf) &&
    decide (rec.validTimeStart ≤ validTime) &&
    decide (validTime < rec.validTimeEnd)

/-- Modelled from the spec: `queryAsOf` as §4.1 words it, scanning newest to
oldest with the inclusive-left predicate `specTemporalMatch`. -/
def queryAsOfSpec {α : Type} (db : DBData α) (key : String)
    (asOf validTime : Time) : Option α :=
  match lookupData db key with
  | none => none
  | some records =>
    (records.reverse.find? (specTemporalMatch asOf validTime)).map fun rec =>
      rec.value

/-- `GetHistory` from `db_engine.go`: the full insertion-ordered history of a
key, or the empty list when the key is unknown (the defensive copy of the
source is the identity under value semantics). -/
def GetHistory {α : Type} (db : DBData α) (key : String) :
    List (TemporalRecord α) :=
  match lookupData db key with
  | none => []
  | some records => records

end DBEngine

/-- The `NodeCounts` map of a `GCounter` from `crdt.go`
(`map[string]int64`), as an association list. -/
abbrev NodeCounts := List (String × Int)

namespace CRDTStore

/-- Reading `m[nodeID]` from a Go `map[string]int64`: the stored value, or the
zero value `0` when the key is absent. -/
def countsLookup (m : NodeCounts) (nodeID : String) : Int :=
  match m with
  | [] => 0
  | p :: rest => if p.1 = nodeID then p.2 else countsLookup rest nodeID

/-- Writing `m[nodeID] = v` into a Go `map[string]int64`: replace the binding
in place, or append a fresh one when the key is absent. -/
def countsSet (m : NodeCounts) (nodeID : String) (v : Int) : NodeCounts :=
  match m with
  | [] => [(nodeID, v)]
  | p :: rest =>
    if p.1 = nodeID then (nodeID, v) :: rest else p :: countsSet rest nodeID v

/-- `IncrementCounter` from `crdt.go`, per key: `gc.NodeCounts[nodeID] += delta`
with no validation of `delta` and no error return (the enclosing per-key map of
`CRDTStore` supplies `[]` for a key with no counter yet). -/
def IncrementCounter (gc : NodeCounts) (nodeID : String) (delta : Int) :
    NodeCounts :=
  countsSet gc nodeID (countsLookup gc nodeID + delta)

/-- `GetCounter` from `crdt.go`, per key: the sum of all per-node components. -/
def GetCounter (gc : NodeCounts) : Int :=
  (gc.map fun p => p.2).sum

/-- `MergeCounter` from `crdt.go`, per key: for each component of the remote
counter, overwrite the local component when the remote one is strictly
larger. -/
def MergeCounter (loc other : NodeCounts) : NodeCounts :=
  other.foldl
    (fun acc p => if countsLookup acc p.1 < p.2 then countsSet acc p.1 p.2 else acc)
    loc

/-- The `GCounter` data-model invariant of spec §3: one component per node and
every component non-negative.  It holds for every state reachable from the
empty counter by non-negative increments and merges. -/
def CounterInv (m : NodeCounts) : Prop :=
  (m.map fun p => p.1).Nodup ∧ ∀ p ∈ m, 0 ≤ p.2

instance (m : NodeCounts) : Decidable (CounterInv m) := by
  unfold CounterInv; infer_instance

/-- `LWWRegister` from `crdt.go`. -/
structure LWWRegister (α : Type) where
  value : α
  timestamp : Time
  nodeID : String
deriving DecidableEq, Repr

/-- The `(timestamp, nodeID)` pair of a register, compared by the tie-break
order of `crdt.go`: higher timestamp wins, on a timestamp tie the
lexicographically higher node id wins. -/
def regPair {α : Type} (r : LWWRegister α) : Time × String :=
  (r.timestamp, r.nodeID)

/-- Strict tie-break order on `(timestamp, nodeID)` pairs. -/
def pairLt (a b : Time × String) : Prop :=
  a.1 < b.1 ∨ (a.1 = b.1 ∧ a.2 < b.2)

instance (a b : Time × String) : Decidable (pairLt a b) := by
  unfold pairLt; infer_instance

/-- Reflexive tie-break order on `(timestamp, nodeID)` pairs. -/
def pairLe (a b : Time × String) : Prop :=
  pairLt a b ∨ a = b

instance (a b : Time × String) : Decidable (pairLe a b) := by
  unfold pairLe; infer_instance

/-- `SetLWW` from `crdt.go`, per key: store the incoming register when the key
holds none yet, or when `timestamp.After(existing.Timestamp)`, or when the
timestamps are equal and `nodeID > existing.NodeID`. -/
def SetLWW {α : Type} (existing : Option (LWWRegister α)) (value : α)
    (timestamp : Time) (nodeID : String) : Option (LWWRegister α) :=
  match existing with
  | none => some { value := value, timestamp := timestamp, nodeID := nodeID }
  | some ex =>
    if ex.timestamp < timestamp ∨ (timestamp = ex.timestamp ∧ ex.nodeID < nodeID) then
      some { value := value, timestamp := timestamp, nodeID := nodeID }
    else
      some ex

/-- `MergeLWW` from `crdt.go`, per key: keep the incoming register under the
same condition as `SetLWW`. -/
def MergeLWW {α : Type} (loc : Option (LWWRegister α)) (other : LWWRegister α) :
    Option (LWWRegister α) :=
  match loc with
  | none => some other
  | some ex =>
    if ex.timestamp < other.timestamp ∨
        (other.timestamp = ex.timestamp ∧ ex.nodeID < other.nodeID) then
      some other
    else
      some ex

/-- A sequence of register writes for one key, delivered in list order to a
key that starts with no register. -/
def applyLWW {α : Type} (calls : List (LWWRegister α)) :
    Option (LWWRegister α) :=
  calls.foldl MergeLWW none

end CRDTStore

/-- `RaftState` from `raft.go`. -/
inductive RaftState where
  | Follower
  | Candidate
  | Leader
deriving DecidableEq, Repr

/-- `LogEntry` from `raft.go`; the opaque `interface{}` command becomes `σ`. -/
structure LogEntry (σ : Type) where
  term : Int
  index : Int
  command : σ
deriving DecidableEq, Repr

/-- `RaftNode` from `raft.go`: the consensus fields plus the state of the
`*DBEngine` and `*CRDTStore` it points to (locks, ports, data directory and the
shutdown channel are elided). -/
structure RaftNode (σ α : Type) where
  nodeID : String
  state : RaftState
  currentTerm : Int
  votedFor : String
  log : List (LogEntry σ)
  commitIndex : Int
  lastApplied : Int
  db : DBData α
  gcounters : List (String × NodeCounts)
  lwwRegs : List (String × CRDTStore.LWWRegister α)

/-- `NewRaftNode` from `raft.go`: a fresh Follower at term 0 with an empty log
and zero commit/applied indices, sharing the given stores. -/
def NewRaftNode {σ α : Type} (nodeID : String) (db : DBData α)
    (gcounters : List (String × NodeCounts))
    (lwwRegs : List (String × CRDTStore.LWWRegister α)) : RaftNode σ α :=
  { nodeID := nodeID, state := RaftState.Follower, currentTerm := 0,
    votedFor := "", log := [], commitIndex := 0, lastApplied := 0,
    db := db, gcounters := gcounters, lwwRegs := lwwRegs }

/-- `Apply` from `raft.go`: unconditionally append a `LogEntry` with the
current term and index `len(log)+1`, advance `commitIndex` and `lastApplied`
to that index, and return `nil` (modelled as `none`); the node's role is never
inspected and the `DBEngine` / `CRDTStore` state is never touched. -/
def RaftNode.Apply {σ α : Type} (r : RaftNode σ α) (command : σ) :
    RaftNode σ α × Option String :=
  let entry : LogEntry σ :=
    { term := r.currentTerm, index := (r.log.length : Int) + 1,
      command := command }
  ({ r with
      log := r.log ++ [entry]
      commitIndex := entry.index
      lastApplied := entry.index }, none)

/-- The structural invariant that `NewRaftNode` establishes and `Apply`
preserves: commit and applied indices both equal the log length, and the entry
at 0-based position `i` carries index `i+1`. -/
def RaftNode.WellFormed {σ α : Type} (r : RaftNode σ α) : Prop :=
  r.commitIndex = (r.log.length : Int) ∧
  r.lastApplied = (r.log.length : Int) ∧
  ∀ i : Fin r.log.length, (r.log.get i).index = (i.val : Int) + 1

/-- Scanning a list from its last element to its first and returning the first
hit is the same as taking the last element of the filtered list. -/
theorem reverse_find?_eq_getLast?_filter {β : Type} (p : β → Bool) (l : List β) :
    l.reverse.find? p = (l.filter p).getLast? := by
  induction l using List.reverseRecOn with
  | nil => rfl
  | append_singleton l a ih =>
    rw [List.reverse_append, List.filter_append]
    cases h : p a with
    | true =>
      have hsing : ([a].filter p) = [a] := by
        rw [List.filter_cons_of_pos h, List.filter_nil]
      rw [hsing]
      have hfind : ((([a] : List β).reverse ++ l.reverse).find? p) = some a := by
        rw [List.reverse_singleton]
        exact List.find?_cons_of_pos _ h
      rw [hfind, List.getLast?_concat]
    | false =>
      have hsing : ([a].filter p) = [] := by
        rw [List.filter_cons_of_neg (by simp [h]), List.filter_nil]
      rw [hsing, List.append_nil]
      have hfind : ((([a] : List β).reverse ++ l.reverse).find? p)
          = l.reverse.find? p := by
        rw [List.reverse_singleton]
        exact List.find?_cons_of_neg _ (by simp [h])
      rw [hfind, ih]

/-- Writing a key's history and reading it back yields that history. -/
theorem DBEngine.lookupData_setData_self {α : Type} (db : DBData α)
    (key : String) (h : List (TemporalRecord α)) :
    lookupData (setData db key h) key = some h := by
  induction db with
  | nil =>
    unfold setData lookupData
    rw [List.find?_cons_of_pos _ (by simp)]
    rfl
  | cons kv rest ih =>
    unfold setData
    by_cases hk : kv.1 = key
    · rw [if_pos (by simpa using hk)]
      unfold lookupData
      rw [List.find?_cons_of_pos _ (by simp)]
      rfl
    · rw [if_neg (by simpa using hk)]
      unfold lookupData
      rw [List.find?_cons_of_neg _ (by simpa using hk)]
      exact ih

/-- Unknown key: `QueryTemporal` returns not-found. -/
theorem DBEngine.QueryTemporal_eq_none_of_lookup {α : Type} {db : DBData α}
    {key : String} (asOf v : Time) (h : lookupData db key = none) :
    QueryTemporal db key asOf v = none := by
  unfold QueryTemporal
  rw [h]

/-- Known key: `QueryTemporal` scans the stored history newest-first. -/
theorem DBEngine.QueryTemporal_eq_find_of_lookup {α : Type} {db : DBData α}
    {key : String} {records : List (TemporalRecord α)} (asOf v : Time)
    (h : lookupData db key = some records) :
    QueryTemporal db key asOf v
      = (records.reverse.find? (temporalMatch asOf v)).map fun rec =>
          rec.value := by
  unfold QueryTemporal
  rw [h]

/-- Unknown key: `GetHistory` returns the empty list. -/
theorem DBEngine.GetHistory_eq_nil_of_lookup {α : Type} {db : DBData α}
    {key : String} (h : lookupData db key = none) :
    GetHistory db key = [] := by
  unfold GetHistory
  rw [h]

/-- Known key: `GetHistory` returns the stored history. -/
theorem DBEngine.GetHistory_eq_of_lookup {α : Type} {db : DBData α}
    {key : String} {records : List (TemporalRecord α)}
    (h : lookupData db key = some records) :
    GetHistory db key = records := by
  unfold GetHistory
  rw [h]

/-- Claim C1, amended (the source predicate is strict at `validFrom`):
`QueryTemporal` scans the key's history from most-recently-inserted to oldest
and returns the value of the first record satisfying `recordedAt ≤ asOf` and
`validFrom < validTime < validTo`; equivalently, the value of the latest
inserted matching record, so when two records both match, the later-inserted
one is returned, and the result is `none` when no record matches or the key is
unknown. -/
theorem DBEngine.QueryTemporal_returns_last_strict_match {α : Type}
    (db : DBData α) (key : String) (asOf v : Time) :
    QueryTemporal db key asOf v
      = ((((lookupData db key).getD []).filter (temporalMatch asOf v)).getLast?).map
          (fun rec => rec.value) := by
  cases h : lookupData db key with
  | none =>
    rw [QueryTemporal_eq_none_of_lookup asOf v h]
    rfl
  | some records =>
    rw [QueryTemporal_eq_find_of_lookup asOf v h,
      reverse_find?_eq_getLast?_filter]
    rfl

/-- Claim C1, counterexample: on a record with `validFrom = 5`, `validTo = 10`,
`recordedAt = 0`, the query at `asOf = 0`, `validTime = 5` satisfies the
spec's predicate (`validFrom ≤ validTime < validTo`), yet `QueryTemporal`
returns not-found because the source compares `validTime.After(ValidTimeStart)`
strictly. -/
theorem DBEngine.queryAsOfSpec_disagrees_at_validFrom_boundary :
    DBEngine.queryAsOfSpec
        ([("k", [{ key := "k", value := (42 : Int), validTimeStart := 5,
                   validTimeEnd := 10, transactionTime := 0 }])] : DBData Int)
        "k" 0 5 = some 42
  ∧ DBEngine.QueryTemporal
        ([("k", [{ key := "k", value := (42 : Int), validTimeStart := 5,
                   validTimeEnd := 10, transactionTime := 0 }])] : DBData Int)
        "k" 0 5 = none := by
  constructor <;> rfl

/-- Claim C2: with two records inserted for a key, the second recorded strictly
after the first, a query whose `asOf` precedes the second record's transaction
time never returns the second record's value, even when `validTime` lies inside
the second record's valid interval. -/
theorem DBEngine.QueryTemporal_ignores_later_recorded {α : Type}
    (db : DBData α) (key : String) (r1 r2 : TemporalRecord α) (asOf v : Time)
    (hlookup : lookupData db key = some [r1, r2])
    (ht : r1.transactionTime < r2.transactionTime)
    (hasOf : asOf < r2.transactionTime)
    (hval : r2.value ≠ r1.value) :
    QueryTemporal db key asOf v ≠ some r2.value := by
  rw [QueryTemporal_eq_find_of_lookup asOf v hlookup]
  have hrev : ([r1, r2] : List (TemporalRecord α)).reverse = [r2, r1] := rfl
  rw [hrev]
  have h2 : temporalMatch asOf v r2 = false := by
    simp [temporalMatch, hasOf]
  rw [List.find?_cons_of_neg _ (by simp [h2])]
  cases h1 : temporalMatch asOf v r1 with
  | true =>
    rw [List.find?_cons_of_pos _ h1]
    intro hcontra
    exact hval (Option.some.inj hcontra).symm
  | false =>
    rw [List.find?_cons_of_neg _ (by simp [h1])]
    simp

/-- Claim C7 (code bug): `Insert` performs no validation of the valid-time
range: with `validFrom = 10 ≥ 5 = validTo` it appends the malformed record to
the key's history instead of rejecting the operation with a ValidationError. -/
theorem DBEngine.Insert_accepts_inverted_range :
    (5 : ChronoDB.Time) ≤ 10
  ∧ DBEngine.Insert ([] : DBData Int) "k" (7 : Int) 10 5 0
      = [("k", [{ key := "k", value := (7 : Int), validTimeStart := 10,
                  validTimeEnd := 5, transactionTime := 0 }])]
  ∧ DBEngine.GetHistory (DBEngine.Insert ([] : DBData Int) "k" (7 : Int) 10 5 0) "k"
      = [{ key := "k", value := (7 : Int), validTimeStart := 10,
           validTimeEnd := 5, transactionTime := 0 }] := by
  refine ⟨by norm_num, rfl, rfl⟩

/-- Claim C10: `GetHistory` returns the empty sequence (not an error or an
absent result) for a key with no stored records, returns exactly the stored
insertion-ordered history otherwise, and an `Insert` extends that history by
one record at the end. -/
theorem DBEngine.GetHistory_empty_or_stored {α : Type} (db : DBData α)
    (key : String) :
    (lookupData db key = none → GetHistory db key = [])
  ∧ (∀ recs, lookupData db key = some recs → GetHistory db key = recs)
  ∧ (∀ (value : α) (validStart validEnd tx : Time),
      GetHistory (Insert db key value validStart validEnd tx) key
        = GetHistory db key ++
            [{ key := key, value := value, validTimeStart := validStart,
               validTimeEnd := validEnd, transactionTime := tx }]) := by
  refine ⟨fun h => GetHistory_eq_nil_of_lookup h,
    fun recs h => GetHistory_eq_of_lookup h, ?_⟩
  intro value validStart validEnd tx
  unfold Insert
  rw [GetHistory_eq_of_lookup (lookupData_setData_self db key _)]
  cases h : lookupData db key with
  | none => rw [GetHistory_eq_nil_of_lookup h]; rfl
  | some recs => rw [GetHistory_eq_of_lookup h]; rfl

/-- Claim C10, witness: the empty store yields an empty history, a one-record
store yields exactly that record. -/
theorem DBEngine.GetHistory_empty_or_stored_witness :
    DBEngine.GetHistory ([] : DBData Int) "k" = []
  ∧ DBEngine.GetHistory
      ([("k", [{ key := "k", value := (1 : Int), validTimeStart := 0,
                 validTimeEnd := 10, transactionTime := 0 }])] : DBData Int) "k"
      = [{ key := "k", value := (1 : Int), validTimeStart := 0,
           validTimeEnd := 10, transactionTime := 0 }] :=
  ⟨(DBEngine.GetHistory_empty_or_stored ([] : DBData Int) "k").1 rfl,
   (DBEngine.GetHistory_empty_or_stored _ "k").2.1 _ rfl⟩

/-- Looking a node up after a write: the written value at the written node,
the old value elsewhere. -/
theorem CRDTStore.countsLookup_countsSet (m : NodeCounts) (n : String)
    (v : Int) (x : String) :
    countsLookup (countsSet m n v) x = if x = n then v else countsLookup m x := by
  induction m with
  | nil =>
    show countsLookup [(n, v)] x = _
    show (if n = x then v else countsLookup [] x) = _
    by_cases hx : x = n
    · rw [if_pos hx.symm, if_pos hx]
    · rw [if_neg (fun h => hx h.symm), if_neg hx]
  | cons p rest ih =>
    show countsLookup (if p.1 = n then ((n, v) :: rest : NodeCounts)
        else p :: countsSet rest n v) x = _
    by_cases hp : p.1 = n
    · rw [if_pos hp]
      show (if n = x then v else countsLookup rest x) = _
      by_cases hx : x = n
      · rw [if_pos hx.symm, if_pos hx]
      · rw [if_neg (fun h => hx h.symm), if_neg hx]
        show countsLookup rest x = if p.1 = x then p.2 else countsLookup rest x
        rw [if_neg (fun h => hx ((hp.symm.trans h).symm))]
    · rw [if_neg hp]
      show (if p.1 = x then p.2 else countsLookup (countsSet rest n v) x) = _
      by_cases hpx : p.1 = x
      · rw [if_pos hpx, if_neg (fun h => hp (hpx.trans h))]
        show p.2 = if p.1 = x then p.2 else countsLookup rest x
        rw [if_pos hpx]
      · rw [if_neg hpx, ih]
        by_cases hx : x = n
        · rw [if_pos hx, if_pos hx]
        · rw [if_neg hx, if_neg hx]
          show countsLookup rest x = if p.1 = x then p.2 else countsLookup rest x
          rw [if_neg hpx]

/-- Every entry of a written map is an old entry or the written binding. -/
theorem CRDTStore.mem_countsSet (m : NodeCounts) (n : String) (v : Int)
    (q : String × Int) (hq : q ∈ countsSet m n v) : q ∈ m ∨ q = (n, v) := by
  induction m with
  | nil =>
    simp only [countsSet, List.mem_singleton] at hq
    exact Or.inr hq
  | cons p rest ih =>
    have hq' : q ∈ (if p.1 = n then ((n, v) :: rest : NodeCounts)
        else p :: countsSet rest n v) := hq
    by_cases hp : p.1 = n
    · rw [if_pos hp] at hq'
      rcases List.mem_cons.mp hq' with h | h
      · exact Or.inr h
      · exact Or.inl (List.mem_cons_of_mem _ h)
    · rw [if_neg hp] at hq'
      rcases List.mem_cons.mp hq' with h | h
      · exact Or.inl (h ▸ List.mem_cons_self _ _)
      · rcases ih h with h' | h'
        · exact Or.inl (List.mem_cons_of_mem _ h')
        · exact Or.inr h'

/-- The key list after a write: unchanged when the node already has an entry,
extended by the node otherwise. -/
theorem CRDTStore.keys_countsSet (m : NodeCounts) (n : String) (v : Int) :
    (countsSet m n v).map (fun p => p.1)
      = if n ∈ m.map (fun p => p.1) then m.map (fun p => p.1)
        else m.map (fun p => p.1) ++ [n] := by
  induction m with
  | nil => simp [countsSet]
  | cons p rest ih =>
    show ((if p.1 = n then ((n, v) :: rest : NodeCounts)
        else p :: countsSet rest n v)).map (fun p => p.1) = _
    by_cases hp : p.1 = n
    · rw [if_pos hp]
      simp [hp]
    · rw [if_neg hp]
      by_cases hmem : n ∈ rest.map fun p => p.1
      · simp only [List.map_cons, ih, if_pos hmem]
        rw [if_pos (List.mem_cons_of_mem _ hmem)]
      · simp only [List.map_cons, ih, if_neg hmem]
        rw [if_neg (by
          rw [List.mem_cons]
          push_neg
          exact ⟨fun h => hp h.symm, hmem⟩)]
        simp

/-- A write of a non-negative value preserves the `GCounter` invariant. -/
theorem CRDTStore.counterInv_countsSet {m : NodeCounts} (n : String) {v : Int}
    (hm : CounterInv m) (hv : 0 ≤ v) : CounterInv (countsSet m n v) := by
  constructor
  · rw [keys_countsSet]
    by_cases hmem : n ∈ m.map fun p => p.1
    · rw [if_pos hmem]
      exact hm.1
    · rw [if_neg hmem]
      simp [List.nodup_append, hm.1, hmem]
  · intro q hq
    rcases mem_countsSet m n v q hq with h | h
    · exact hm.2 q h
    · rw [h]
      exact hv

/-- Map reads are non-negative when all entries are. -/
theorem CRDTStore.countsLookup_nonneg {m : NodeCounts}
    (hm : ∀ p ∈ m, 0 ≤ p.2) (x : String) : 0 ≤ countsLookup m x := by
  induction m with
  | nil => exact le_refl 0
  | cons p rest ih =>
    show (0 : Int) ≤ if p.1 = x then p.2 else countsLookup rest x
    by_cases hp : p.1 = x
    · rw [if_pos hp]
      exact hm p (List.mem_cons_self _ _)
    · rw [if_neg hp]
      exact ih fun q hq => hm q (List.mem_cons_of_mem _ hq)

/-- A node absent from the map reads as the zero value. -/
theorem CRDTStore.countsLookup_eq_zero_of_not_mem {m : NodeCounts} {x : String}
    (hx : x ∉ m.map fun p => p.1) : countsLookup m x = 0 := by
  induction m with
  | nil => rfl
  | cons p rest ih =>
    rw [List.map_cons, List.mem_cons] at hx
    push_neg at hx
    show (if p.1 = x then p.2 else countsLookup rest x) = 0
    rw [if_neg (fun h => hx.1 h.symm)]
    exact ih hx.2

/-- Reading a cons cell. -/
theorem CRDTStore.countsLookup_cons (p : String × Int) (m : NodeCounts)
    (x : String) :
    countsLookup (p :: m) x = if p.1 = x then p.2 else countsLookup m x := rfl

/-- One step of the merge loop. -/
theorem CRDTStore.MergeCounter_cons (l : NodeCounts) (p : String × Int)
    (r : NodeCounts) :
    MergeCounter l (p :: r)
      = MergeCounter
          (if countsLookup l p.1 < p.2 then countsSet l p.1 p.2 else l) r := rfl

/-- `MergeCounter` reads as the pointwise maximum of the two maps, provided the
local components are non-negative and the remote map is well-formed. -/
theorem CRDTStore.countsLookup_MergeCounter (l r : NodeCounts)
    (hl : ∀ p ∈ l, 0 ≤ p.2) (hr : (r.map fun p => p.1).Nodup) (x : String) :
    countsLookup (MergeCounter l r) x
      = max (countsLookup l x) (countsLookup r x) := by
  induction r generalizing l with
  | nil =>
    show countsLookup l x = max (countsLookup l x) (countsLookup [] x)
    rw [show countsLookup ([] : NodeCounts) x = 0 from rfl,
      max_eq_left (countsLookup_nonneg hl x)]
  | cons p r ih =>
    rw [MergeCounter_cons]
    have hrn : (r.map fun p => p.1).Nodup := by
      rw [List.map_cons] at hr
      exact hr.of_cons
    have hpnot : p.1 ∉ r.map fun p => p.1 := by
      rw [List.map_cons] at hr
      exact (List.nodup_cons.mp hr).1
    have hl' : ∀ q ∈ (if countsLookup l p.1 < p.2 then countsSet l p.1 p.2 else l),
        0 ≤ q.2 := by
      by_cases hlt : countsLookup l p.1 < p.2
      · rw [if_pos hlt]
        intro q hq
        rcases mem_countsSet l p.1 p.2 q hq with h | h
        · exact hl q h
        · rw [h]
          exact le_of_lt (lt_of_le_of_lt (countsLookup_nonneg hl p.1) hlt)
      · rw [if_neg hlt]
        exact hl
    rw [ih _ hl' hrn]
    have hstep : ∀ y : String,
        countsLookup (if countsLookup l p.1 < p.2 then countsSet l p.1 p.2 else l) y
          = if y = p.1 then max (countsLookup l p.1) p.2 else countsLookup l y := by
      intro y
      by_cases hlt : countsLookup l p.1 < p.2
      · rw [if_pos hlt, countsLookup_countsSet]
        by_cases hy : y = p.1
        · rw [if_pos hy, if_pos hy, max_eq_right (le_of_lt hlt)]
        · rw [if_neg hy, if_neg hy]
      · rw [if_neg hlt]
        by_cases hy : y = p.1
        · rw [if_pos hy, hy, max_eq_left (le_of_not_lt hlt)]
        · rw [if_neg hy]
    rw [hstep x, countsLookup_cons]
    by_cases hx : x = p.1
    · subst hx
      rw [if_pos rfl, if_pos rfl, countsLookup_eq_zero_of_not_mem hpnot,
        max_eq_left
          (le_trans (countsLookup_nonneg hl p.1)
            (le_max_left (countsLookup l p.1) p.2))]
    · rw [if_neg hx, if_neg (fun h => hx h.symm)]

/-- `MergeCounter` preserves the `GCounter` invariant of its local argument. -/
theorem CRDTStore.counterInv_MergeCounter {l : NodeCounts} (r : NodeCounts)
    (hl : CounterInv l) : CounterInv (MergeCounter l r) := by
  induction r generalizing l with
  | nil => exact hl
  | cons p r ih =>
    rw [MergeCounter_cons]
    by_cases hlt : countsLookup l p.1 < p.2
    · rw [if_pos hlt]
      exact ih (counterInv_countsSet p.1 hl
        (le_of_lt (lt_of_le_of_lt (countsLookup_nonneg hl.2 p.1) hlt)))
    · rw [if_neg hlt]
      exact ih hl

/-- The counter total is the sum of the reads over any finite superset of the
stored node ids. -/
theorem CRDTStore.GetCounter_eq_sum (m : NodeCounts)
    (hm : (m.map fun p => p.1).Nodup) (S : Finset String)
    (hS : ∀ p ∈ m, p.1 ∈ S) :
    GetCounter m = ∑ x ∈ S, countsLookup m x := by
  induction m generalizing S with
  | nil =>
    calc GetCounter [] = 0 := rfl
      _ = ∑ _x ∈ S, (0 : Int) := by rw [Finset.sum_const, smul_zero]
      _ = ∑ x ∈ S, countsLookup [] x :=
        Finset.sum_congr rfl fun x _ => rfl
  | cons p t ih =>
    rw [List.map_cons, List.nodup_cons] at hm
    have hpS : p.1 ∈ S := hS p (List.mem_cons_self _ _)
    have hins : S = insert p.1 (S.erase p.1) := (Finset.insert_erase hpS).symm
    rw [hins, Finset.sum_insert (Finset.not_mem_erase _ _)]
    have hp1 : countsLookup (p :: t) p.1 = p.2 := by
      rw [countsLookup_cons, if_pos rfl]
    have hrest : ∑ x ∈ S.erase p.1, countsLookup (p :: t) x
        = ∑ x ∈ S.erase p.1, countsLookup t x := by
      refine Finset.sum_congr rfl fun x hx => ?_
      rw [countsLookup_cons, if_neg]
      exact fun h => (Finset.mem_erase.mp hx).1 h.symm
    rw [hp1, hrest]
    have ht : ∀ q ∈ t, q.1 ∈ S.erase p.1 := by
      intro q hq
      refine Finset.mem_erase.mpr ⟨?_, hS q (List.mem_cons_of_mem _ hq)⟩
      intro hqp
      exact hm.1 (hqp ▸ List.mem_map_of_mem (fun p => p.1) hq)
    rw [← ih hm.2 (S.erase p.1) ht]
    show (p.2 + (t.map fun p => p.2).sum) = p.2 + GetCounter t
    rfl

/-- Maps with equal reads everywhere have equal totals. -/
theorem CRDTStore.GetCounter_congr (m₁ m₂ : NodeCounts)
    (h₁ : (m₁.map fun p => p.1).Nodup) (h₂ : (m₂.map fun p => p.1).Nodup)
    (h : ∀ x, countsLookup m₁ x = countsLookup m₂ x) :
    GetCounter m₁ = GetCounter m₂ := by
  have hsub₁ : ∀ p ∈ m₁, p.1 ∈ (m₁.map fun p => p.1).toFinset ∪
      (m₂.map fun p => p.1).toFinset := by
    intro p hp
    exact Finset.mem_union_left _
      (List.mem_toFinset.mpr (List.mem_map_of_mem (fun p => p.1) hp))
  have hsub₂ : ∀ p ∈ m₂, p.1 ∈ (m₁.map fun p => p.1).toFinset ∪
      (m₂.map fun p => p.1).toFinset := by
    intro p hp
    exact Finset.mem_union_right _
      (List.mem_toFinset.mpr (List.mem_map_of_mem (fun p => p.1) hp))
  rw [GetCounter_eq_sum m₁ h₁ _ hsub₁, GetCounter_eq_sum m₂ h₂ _ hsub₂]
  exact Finset.sum_congr rfl fun x _ => h x

/-- Claim C3: on well-formed `GCounter` states (the reachable states: one
component per node, all components non-negative), `MergeCounter` computes the
pointwise maximum of the local and remote component maps, preserves
well-formedness, and is commutative, associative and idempotent; consequently
two replicas that cross-merge each other's state end with equal counter
totals, and a non-negative `IncrementCounter` keeps states well-formed. -/
theorem CRDTStore.MergeCounter_pointwise_max_convergence
    (l r s : NodeCounts) (hl : CounterInv l) (hr : CounterInv r)
    (hs : CounterInv s) :
    (∀ x, countsLookup (MergeCounter l r) x
        = max (countsLookup l x) (countsLookup r x))
  ∧ CounterInv (MergeCounter l r)
  ∧ (∀ x, countsLookup (MergeCounter l r) x = countsLookup (MergeCounter r l) x)
  ∧ (∀ x, countsLookup (MergeCounter (MergeCounter l r) s) x
        = countsLookup (MergeCounter l (MergeCounter r s)) x)
  ∧ (∀ x, countsLookup (MergeCounter l l) x = countsLookup l x)
  ∧ GetCounter (MergeCounter l r) = GetCounter (MergeCounter r l)
  ∧ (∀ (m : NodeCounts) (node : String) (delta : Int),
        CounterInv m → 0 ≤ delta → CounterInv (IncrementCounter m node delta)) := by
  have Hlr := countsLookup_MergeCounter l r hl.2 hr.1
  have Hrl := countsLookup_MergeCounter r l hr.2 hl.1
  have Ilr : CounterInv (MergeCounter l r) := counterInv_MergeCounter r hl
  have Irl : CounterInv (MergeCounter r l) := counterInv_MergeCounter l hr
  have Irs : CounterInv (MergeCounter r s) := counterInv_MergeCounter s hr
  have hcomm : ∀ x, countsLookup (MergeCounter l r) x
      = countsLookup (MergeCounter r l) x := by
    intro x
    rw [Hlr x, Hrl x, max_comm]
  refine ⟨Hlr, Ilr, hcomm, ?_, ?_, ?_, ?_⟩
  · intro x
    rw [countsLookup_MergeCounter _ s Ilr.2 hs.1, Hlr x,
      countsLookup_MergeCounter l _ hl.2 Irs.1,
      countsLookup_MergeCounter r s hr.2 hs.1, max_assoc]
  · intro x
    rw [countsLookup_MergeCounter l l hl.2 hl.1, max_self]
  · exact GetCounter_congr _ _ Ilr.1 Irl.1 hcomm
  · intro m node delta hm hdelta
    exact counterInv_countsSet node hm
      (add_nonneg (countsLookup_nonneg hm.2 node) hdelta)

/-- Claim C3, witness: the spec's §8 scenario, `{n1:3, n2:2}` cross-merged with
`{n1:1, n2:5}`; the merge is a well-formed pointwise maximum and both replicas
end with total 8. -/
theorem CRDTStore.MergeCounter_pointwise_max_convergence_witness :
    CounterInv (MergeCounter [("n1", (3 : Int)), ("n2", 2)]
        [("n1", (1 : Int)), ("n2", 5)])
  ∧ GetCounter (MergeCounter [("n1", (3 : Int)), ("n2", 2)]
        [("n1", (1 : Int)), ("n2", 5)])
      = GetCounter (MergeCounter [("n1", (1 : Int)), ("n2", 5)]
        [("n1", (3 : Int)), ("n2", 2)])
  ∧ GetCounter (MergeCounter [("n1", (3 : Int)), ("n2", 2)]
        [("n1", (1 : Int)), ("n2", 5)]) = 8 :=
  ⟨(CRDTStore.MergeCounter_pointwise_max_convergence
      [("n1", (3 : Int)), ("n2", 2)] [("n1", (1 : Int)), ("n2", 5)] []
      (by decide) (by decide) (by decide)).2.1,
   (CRDTStore.MergeCounter_pointwise_max_convergence
      [("n1", (3 : Int)), ("n2", 2)] [("n1", (1 : Int)), ("n2", 5)] []
      (by decide) (by decide) (by decide)).2.2.2.2.2.1,
   by decide⟩

/-- Claim C6 (code bug): `IncrementCounter` accepts a negative delta: the
source has no validity check and no error return, so the call mutates the
counter, drives the node's component below zero (breaking the grow-only
invariant), and the total decreases. -/
theorem CRDTStore.IncrementCounter_negative_delta_mutates :
    IncrementCounter [] "n1" (-5) = [("n1", (-5 : Int))]
  ∧ countsLookup (IncrementCounter [] "n1" (-5)) "n1" = -5
  ∧ GetCounter (IncrementCounter [] "n1" (-5)) = -5
  ∧ IncrementCounter [] "n1" (-5) ≠ ([] : NodeCounts) := by
  refine ⟨rfl, rfl, rfl, by decide⟩

/-- The tie-break order is reflexive. -/
theorem CRDTStore.pairLe_refl (a : Time × String) : pairLe a a :=
  Or.inr rfl

/-- The strict tie-break order is transitive. -/
theorem CRDTStore.pairLt_trans {a b c : Time × String} (hab : pairLt a b)
    (hbc : pairLt b c) : pairLt a c := by
  rcases hab with h1 | ⟨h1, h1'⟩
  · rcases hbc with h2 | ⟨h2, h2'⟩
    · exact Or.inl (lt_trans h1 h2)
    · exact Or.inl (h2 ▸ h1)
  · rcases hbc with h2 | ⟨h2, h2'⟩
    · exact Or.inl (h1 ▸ h2)
    · exact Or.inr ⟨h1.trans h2, lt_trans h1' h2'⟩

/-- The tie-break order is transitive. -/
theorem CRDTStore.pairLe_trans {a b c : Time × String} (hab : pairLe a b)
    (hbc : pairLe b c) : pairLe a c := by
  rcases hab with h1 | h1
  · rcases hbc with h2 | h2
    · exact Or.inl (pairLt_trans h1 h2)
    · exact Or.inl (h2 ▸ h1)
  · rcases hbc with h2 | h2
    · exact Or.inl (h1 ▸ h2)
    · exact Or.inr (h1.trans h2)

/-- Failure of the strict order one way yields the reflexive order the other
way (totality of the tie-break order). -/
theorem CRDTStore.pairLe_of_not_pairLt {a b : Time × String}
    (h : ¬ pairLt a b) : pairLe b a := by
  rcases lt_trichotomy a.1 b.1 with h1 | h1 | h1
  · exact absurd (Or.inl h1) h
  · rcases lt_trichotomy a.2 b.2 with h2 | h2 | h2
    · exact absurd (Or.inr ⟨h1, h2⟩) h
    · exact Or.inr (Prod.ext h1.symm h2.symm)
    · exact Or.inl (Or.inr ⟨h1.symm, h2⟩)
  · exact Or.inl (Or.inl h1)

/-- The tie-break order is antisymmetric. -/
theorem CRDTStore.pairLe_antisymm {a b : Time × String} (hab : pairLe a b)
    (hba : pairLe b a) : a = b := by
  rcases hab with h1 | h1
  · rcases hba with h2 | h2
    · exfalso
      rcases pairLt_trans h1 h2 with h | ⟨_, h⟩
      · exact lt_irrefl _ h
      · exact lt_irrefl _ h
    · exact h2.symm
  · exact h1

/-- The merge step on a populated register is governed by the strict tie-break
order on `(timestamp, nodeID)` pairs. -/
theorem CRDTStore.MergeLWW_some {α : Type} (ex other : LWWRegister α) :
    MergeLWW (some ex) other
      = if pairLt (regPair ex) (regPair other) then some other else some ex := by
  have hiff : (ex.timestamp < other.timestamp ∨
      (other.timestamp = ex.timestamp ∧ ex.nodeID < other.nodeID))
      ↔ pairLt (regPair ex) (regPair other) := by
    unfold pairLt regPair
    constructor
    · rintro (h | ⟨h1, h2⟩)
      · exact Or.inl h
      · exact Or.inr ⟨h1.symm, h2⟩
    · rintro (h | ⟨h1, h2⟩)
      · exact Or.inl h
      · exact Or.inr ⟨h1.symm, h2⟩
  show (if ex.timestamp < other.timestamp ∨
      (other.timestamp = ex.timestamp ∧ ex.nodeID < other.nodeID)
    then some other else some ex) = _
  by_cases h : pairLt (regPair ex) (regPair other)
  · rw [if_pos (hiff.mpr h), if_pos h]
  · rw [if_neg (fun hc => h (hiff.mp hc)), if_neg h]

/-- `SetLWW` and `MergeLWW` perform the same state transition. -/
theorem CRDTStore.SetLWW_eq_MergeLWW {α : Type}
    (st : Option (LWWRegister α)) (v : α) (ts : Time) (nid : String) :
    SetLWW st v ts nid
      = MergeLWW st { value := v, timestamp := ts, nodeID := nid } := by
  cases st <;> rfl

/-- Folding merges over a call list starting from a populated register yields
a register of the extended list that is maximal for the tie-break order. -/
theorem CRDTStore.foldl_MergeLWW_max {α : Type} (cs : List (LWWRegister α))
    (r : LWWRegister α) :
    ∃ m, cs.foldl MergeLWW (some r) = some m ∧ m ∈ r :: cs ∧
      ∀ x ∈ r :: cs, pairLe (regPair x) (regPair m) := by
  induction cs generalizing r with
  | nil =>
    refine ⟨r, rfl, List.mem_cons_self _ _, ?_⟩
    intro x hx
    rcases List.mem_cons.mp hx with h | h
    · rw [h]
      exact pairLe_refl _
    · exact absurd h (List.not_mem_nil x)
  | cons c cs ih =>
    show ∃ m, cs.foldl MergeLWW (MergeLWW (some r) c) = some m ∧ _
    rw [MergeLWW_some]
    by_cases h : pairLt (regPair r) (regPair c)
    · rw [if_pos h]
      obtain ⟨m, hm, hmem, hmax⟩ := ih c
      refine ⟨m, hm, ?_, ?_⟩
      · exact List.mem_cons_of_mem _ hmem
      · intro x hx
        rcases List.mem_cons.mp hx with hxr | hxs
        · exact hxr ▸ pairLe_trans (Or.inl h) (hmax c (List.mem_cons_self _ _))
        · exact hmax x hxs
    · rw [if_neg h]
      obtain ⟨m, hm, hmem, hmax⟩ := ih r
      refine ⟨m, hm, ?_, ?_⟩
      · rcases List.mem_cons.mp hmem with hmr | hms
        · exact hmr ▸ List.mem_cons_self _ _
        · exact List.mem_cons_of_mem _ (List.mem_cons_of_mem _ hms)
      · intro x hx
        rcases List.mem_cons.mp hx with hxr | hxcs
        · exact hxr ▸ hmax r (List.mem_cons_self _ _)
        · rcases List.mem_cons.mp hxcs with hxc | hxs
          · exact hxc ▸ pairLe_trans (pairLe_of_not_pairLt h)
              (hmax r (List.mem_cons_self _ _))
          · exact hmax x (List.mem_cons_of_mem _ hxs)

/-- In a list whose `(timestamp, nodeID)` pairs are pairwise distinct, a pair
determines its register. -/
theorem CRDTStore.eq_of_pairwise_regPair_ne {α : Type}
    {l : List (LWWRegister α)}
    (hp : l.Pairwise fun a b => regPair a ≠ regPair b) {a b : LWWRegister α}
    (ha : a ∈ l) (hb : b ∈ l) (h : regPair a = regPair b) : a = b := by
  induction l with
  | nil => exact absurd ha (List.not_mem_nil a)
  | cons x t ih =>
    rw [List.pairwise_cons] at hp
    rcases List.mem_cons.mp ha with hax | hat
    · rcases List.mem_cons.mp hb with hbx | hbt
      · exact hax.trans hbx.symm
      · exact absurd (hax ▸ h) (hp.1 b hbt)
    · rcases List.mem_cons.mp hb with hbx | hbt
      · exact absurd (hbx ▸ h.symm) (hp.1 a hat)
      · exact ih hp.2 hat hbt

/-- Claim C4: `SetLWW` and `MergeLWW` agree, replace the stored register only
when the incoming `(timestamp, writerId)` pair is strictly greater under the
order "higher timestamp wins, on a tie higher writerId wins", and keep the old
register otherwise; consequently, for any list of register writes whose pairs
are pairwise distinct (so that "the value carrying the maximum pair" is well
defined), delivering the writes in any order leaves the register holding the
write with the maximum pair. -/
theorem CRDTStore.SetLWW_tiebreak_convergence {α : Type} :
    (∀ (st : Option (LWWRegister α)) (v : α) (ts : Time) (nid : String),
        SetLWW st v ts nid
          = MergeLWW st { value := v, timestamp := ts, nodeID := nid })
  ∧ (∀ (ex : LWWRegister α) (v : α) (ts : Time) (nid : String),
        ¬ pairLt (regPair ex) (ts, nid) → SetLWW (some ex) v ts nid = some ex)
  ∧ (∀ (ex : LWWRegister α) (v : α) (ts : Time) (nid : String),
        pairLt (regPair ex) (ts, nid) →
          SetLWW (some ex) v ts nid
            = some { value := v, timestamp := ts, nodeID := nid })
  ∧ (∀ (calls : List (LWWRegister α)) (m : LWWRegister α),
        calls.Pairwise (fun a b => regPair a ≠ regPair b) →
        m ∈ calls → (∀ x ∈ calls, pairLe (regPair x) (regPair m)) →
        applyLWW calls = some m) := by
  refine ⟨SetLWW_eq_MergeLWW, ?_, ?_, ?_⟩
  · intro ex v ts nid h
    rw [SetLWW_eq_MergeLWW, MergeLWW_some]
    exact if_neg h
  · intro ex v ts nid h
    rw [SetLWW_eq_MergeLWW, MergeLWW_some]
    exact if_pos h
  · intro calls m hdist hmem hmax
    cases calls with
    | nil => exact absurd hmem (List.not_mem_nil m)
    | cons c cs =>
      show cs.foldl MergeLWW (MergeLWW none c) = some m
      obtain ⟨m', hm', hmem', hmax'⟩ := foldl_MergeLWW_max cs c
      rw [show MergeLWW (none : Option (LWWRegister α)) c = some c from rfl, hm']
      have h1 : pairLe (regPair m') (regPair m) := hmax m' hmem'
      have h2 : pairLe (regPair m) (regPair m') := hmax' m hmem
      exact congrArg some (eq_of_pairwise_regPair_ne hdist hmem' hmem
        (pairLe_antisymm h1 h2))

/-- Claim C4, witness: the spec's §8 scenario, `set("red", t=10, "n1")` then
`merge({"blue", t=5, "n2"})` in either order: the register holds "red", the
write carrying the maximum `(timestamp, writerId)` pair. -/
theorem CRDTStore.SetLWW_tiebreak_convergence_witness :
    applyLWW [{ value := "red", timestamp := 10, nodeID := "n1" },
              { value := "blue", timestamp := 5, nodeID := "n2" }]
      = some { value := "red", timestamp := 10, nodeID := "n1" }
  ∧ applyLWW [{ value := "blue", timestamp := 5, nodeID := "n2" },
              { value := "red", timestamp := 10, nodeID := "n1" }]
      = some { value := "red", timestamp := 10, nodeID := "n1" } :=
  ⟨(CRDTStore.SetLWW_tiebreak_convergence (α := String)).2.2.2 _ _
      (by decide) (by decide) (by
        intro x hx
        rcases List.mem_cons.mp hx with h | h
        · rw [h]
          exact CRDTStore.pairLe_refl _
        · rcases List.mem_cons.mp h with h' | h'
          · rw [h']
            exact Or.inl (Or.inl (by decide))
          · exact absurd h' (List.not_mem_nil x)),
   (CRDTStore.SetLWW_tiebreak_convergence (α := String)).2.2.2 _ _
      (by decide) (by decide) (by
        intro x hx
        rcases List.mem_cons.mp hx with h | h
        · rw [h]
          exact Or.inl (Or.inl (by decide))
        · rcases List.mem_cons.mp h with h' | h'
          · rw [h']
            exact CRDTStore.pairLe_refl _
          · exact absurd h' (List.not_mem_nil x))⟩

/-- Claim C2, witness: a concrete two-record history where the second record
was recorded after `asOf`; the query cannot return its value. -/
theorem DBEngine.QueryTemporal_ignores_later_recorded_witness :
    DBEngine.QueryTemporal
        ([("k", [{ key := "k", value := (1 : Int), validTimeStart := 0,
                   validTimeEnd := 10, transactionTime := 0 },
                 { key := "k", value := (2 : Int), validTimeStart := 0,
                   validTimeEnd := 10, transactionTime := 5 }])] : DBData Int)
        "k" 3 4 ≠ some 2 :=
  DBEngine.QueryTemporal_ignores_later_recorded _ "k"
    { key := "k", value := (1 : Int), validTimeStart := 0,
      validTimeEnd := 10, transactionTime := 0 }
    { key := "k", value := (2 : Int), validTimeStart := 0,
      validTimeEnd := 10, transactionTime := 5 }
    3 4 rfl (by norm_num) (by norm_num) (by norm_num)

/-- Claim C5 (code bug): `Apply` invoked on a node that is not Leader does not
fail with a NotLeader error: the source never inspects the node's role, so on
the freshly created Follower it appends the entry and returns `nil`. -/
theorem RaftNode.Apply_on_follower_returns_nil :
    (NewRaftNode "node1" ([] : DBData Int) [] [] : RaftNode Int Int).state
        = RaftState.Follower
  ∧ ((NewRaftNode "node1" ([] : DBData Int) [] [] : RaftNode Int Int).Apply
        42).2 = none
  ∧ ((NewRaftNode "node1" ([] : DBData Int) [] [] : RaftNode Int Int).Apply
        42).1.log
      = [{ term := 0, index := 1, command := 42 }] :=
  ⟨rfl, rfl, rfl⟩

/-- Claim C8 (code bug): a command committed via `Apply` (the commit and
applied indices advance to the new entry's index) is never applied to the
Temporal Store or the CRDT Registry: `Apply` only appends to the log and
leaves the `DBEngine` data and both `CRDTStore` maps exactly as they were. -/
theorem RaftNode.Apply_never_reaches_stores {σ α : Type} (r : RaftNode σ α)
    (command : σ) :
    (r.Apply command).2 = none
  ∧ (r.Apply command).1.commitIndex = (r.log.length : Int) + 1
  ∧ (r.Apply command).1.lastApplied = (r.log.length : Int) + 1
  ∧ (r.Apply command).1.db = r.db
  ∧ (r.Apply command).1.gcounters = r.gcounters
  ∧ (r.Apply command).1.lwwRegs = r.lwwRegs :=
  ⟨rfl, rfl, rfl, rfl, rfl, rfl⟩

/-- Claim C9: `NewRaftNode` establishes and every `Apply` preserves the
structural invariant `commitIndex = lastApplied = length of log` with the
entry at 0-based position `i` carrying index `i+1`, and `Apply` always returns
a nil error regardless of the node's state. -/
theorem RaftNode.WellFormed_invariant {σ α : Type} :
    (∀ (nodeID : String) (db : DBData α)
        (gcounters : List (String × NodeCounts))
        (lwwRegs : List (String × CRDTStore.LWWRegister α)),
      (NewRaftNode nodeID db gcounters lwwRegs : RaftNode σ α).WellFormed)
  ∧ (∀ (r : RaftNode σ α) (command : σ), r.WellFormed →
      (r.Apply command).1.WellFormed ∧ (r.Apply command).2 = none) := by
  constructor
  · intro nodeID db gcounters lwwRegs
    refine ⟨rfl, rfl, ?_⟩
    intro i
    exact absurd i.isLt (by simp [NewRaftNode])
  · intro r command h
    obtain ⟨h1, h2, h3⟩ := h
    refine ⟨⟨?_, ?_, ?_⟩, rfl⟩
    · show (r.log.length : Int) + 1 = _
      simp [RaftNode.Apply]
    · show (r.log.length : Int) + 1 = _
      simp [RaftNode.Apply]
    · intro i
      have hi : i.val < r.log.length + 1 := by
        simpa [RaftNode.Apply] using i.isLt
      rcases Nat.lt_or_ge i.val r.log.length with hlt | hge
      · have hget : ((r.Apply command).1.log).get i
            = r.log.get ⟨i.val, hlt⟩ := by
          show (r.log ++ [_]).get i = _
          rw [List.get_eq_getElem, List.get_eq_getElem,
            List.getElem_append_left hlt]
        rw [hget]
        exact h3 ⟨i.val, hlt⟩
      · have hie : i.val = r.log.length := le_antisymm (by omega) hge
        have hget : ((r.Apply command).1.log).get i
            = { term := r.currentTerm, index := (r.log.length : Int) + 1,
                command := command } := by
          show (r.log ++ [_]).get i = _
          rw [List.get_eq_getElem]
          have : i.val = r.log.length + 0 := by omega
          rw [List.getElem_append_right (by omega)]
          simp
        rw [hget, hie]

/-- Claim C9, witness: the invariant holds on a fresh node and is preserved by
a concrete `Apply`, which also returns nil. -/
theorem RaftNode.WellFormed_invariant_witness :
    (NewRaftNode "node1" ([] : DBData Int) [] [] : RaftNode Int Int).WellFormed
  ∧ ((NewRaftNode "node1" ([] : DBData Int) [] [] :
        RaftNode Int Int).Apply 7).1.WellFormed
  ∧ ((NewRaftNode "node1" ([] : DBData Int) [] [] :
        RaftNode Int Int).Apply 7).2 = none :=
  ⟨(RaftNode.WellFormed_invariant (σ := Int) (α := Int)).1 "node1" [] [] [],
   ((RaftNode.WellFormed_invariant (σ := Int) (α := Int)).2 _ 7
      ((RaftNode.WellFormed_invariant (σ := Int) (α := Int)).1 "node1" [] [] [])).1,
   ((RaftNode.WellFormed_invariant (σ := Int) (α := Int)).2 _ 7
      ((RaftNode.WellFormed_invariant (σ := Int) (α := Int)).1 "node1" [] [] [])).2⟩

end ChronoDB
